import Mathlib

/-!
# Verification of the ecrs Ant System engine (`src/aco/ants_system.rs`)

A shallow embedding of the Ant System engine of the `ecrs` crate, together
with proofs of the specification's claims about it.

Modelling conventions:
* `f64` values are modelled as exact rationals `ℚ` (the spec's statements are
  about real-valued arithmetic; floating-point rounding is out of scope).
* nalgebra's dynamically sized `FMatrix = DMatrix<f64>` is modelled as a
  structure carrying its dimensions and an entry function, so that dimension
  mismatches are expressible.
* `rand::thread_rng` is modelled as an explicit stream of draws: a stream of
  naturals (for `gen_range(0..n)`, taken mod `n`) and a stream of rationals
  in `[0, 1)` (for `gen_range(0.0..sum)`, scaled by `sum`).  The interval
  bounds of `gen_range` are part of the structure, mirroring the contract of
  the Rust API.
* The probe (observer) is modelled as an event trace returned by the engine
  functions; `println!` diagnostics are modelled as a boolean flag.
* A Rust panic (`unwrap` on `None`) is modelled as `Option.none` propagating
  out of the function that panics.
* `f64::powf` appears only in `calc_prob`; real-valued exponentiation is not
  computable, so the executable engine keeps it as an abstract parameter of
  the configuration, and the claim about `calc_prob` itself is proved over
  `ℝ` with `Real.rpow` (`calcProbR` below).
-/

namespace ECRS

/-- Model of nalgebra's `FMatrix = DMatrix<f64>`: explicit dimensions plus an
entry function (entries outside the dimensions are irrelevant padding). -/
structure FMatrix (α : Type) where
  nrows : ℕ
  ncols : ℕ
  entry : ℕ → ℕ → α

/-- Model of `FMatrix::zeros(n, m)`. -/
def FMatrix.zeros {α : Type} [Zero α] (n m : ℕ) : FMatrix α :=
  ⟨n, m, fun _ _ => 0⟩

/-- Model of the assignment `m[(i, j)] = x`. -/
def FMatrix.set {α : Type} (M : FMatrix α) (i j : ℕ) (x : α) : FMatrix α :=
  ⟨M.nrows, M.ncols, fun a b => if a = i ∧ b = j then x else M.entry a b⟩

/-- Model of nalgebra's `component_mul` (entrywise product; the caller
guarantees equal dimensions, as nalgebra panics otherwise). -/
def FMatrix.componentMul {α : Type} [Mul α] (A B : FMatrix α) : FMatrix α :=
  ⟨A.nrows, A.ncols, fun i j => A.entry i j * B.entry i j⟩

/-- Model of nalgebra's `.sum()`: the sum of all entries of the matrix. -/
def FMatrix.total {α : Type} [AddCommMonoid α] (A : FMatrix α) : α :=
  ∑ i ∈ Finset.range A.nrows, ∑ j ∈ Finset.range A.ncols, A.entry i j

/-- Sum of row `i` of a matrix (observation used to state the spec's
"every row sums to exactly 2"). -/
def FMatrix.rowSum (M : FMatrix ℚ) (i : ℕ) : ℚ :=
  ∑ j ∈ Finset.range M.ncols, M.entry i j

/-- Sum of column `j` of a matrix. -/
def FMatrix.colSum (M : FMatrix ℚ) (j : ℕ) : ℚ :=
  ∑ i ∈ Finset.range M.nrows, M.entry i j

/-- Model of `rand::thread_rng()` as an explicit stream of draws.
`nat k` backs the `k`-th call of `gen_range(0..n)` (taken mod `n`);
`u k` backs the `k`-th call of `gen_range(0.0..sum)` (scaled by `sum`).
The bounds `0 ≤ u k < 1` mirror the half-open interval contract of
`Rng::gen_range`. -/
structure Rng where
  nat : ℕ → ℕ
  u : ℕ → ℚ
  u_nonneg : ∀ k, 0 ≤ u k
  u_lt_one : ∀ k, u k < 1

/-- Model of the roulette-wheel scan in `run_ant`:
`let mut next = last; for v in unvisited { r -= row[v]; if r <= 0.0 { next = v; break; } }`. -/
def selectNext (row : ℕ → ℚ) (r : ℚ) (last : ℕ) : List ℕ → ℕ
  | [] => last
  | v :: vs => if r - row v ≤ 0 then v else selectNext row (r - row v) last vs

/-- Model of the pair of assignments `sol[(a, b)] = 1.0; sol[(b, a)] = 1.0`. -/
def addEdge (M : FMatrix ℚ) (a b : ℕ) : FMatrix ℚ :=
  (M.set a b 1).set b a 1

/-- Model of the `while !unvisited.is_empty()` loop of `run_ant`.
The `HashSet` of unvisited nodes is modelled as a list (its iteration order
is implementation-defined but consistent within one loop pass, which the
list order realises).  The loop terminates because each pass removes the
selected node from `unvisited`; this is expressed by the `fuel` argument,
which callers instantiate with `unvisited.length` (the branch for exhausted
fuel with a non-empty unvisited list is unreachable under that discipline,
because the selected node always belongs to `unvisited`).
Returns the solution matrix together with a flag recording whether the
degenerate branch (`println!("Could not find a solution")`, returning
`FMatrix::zeros`) was taken. -/
def runAntLoop (prob : FMatrix ℚ) (n : ℕ) (rng : Rng) (first : ℕ) :
    ℕ → FMatrix ℚ → ℕ → List ℕ → ℕ → FMatrix ℚ × Bool
  | _, sol, last, [], _ => (addEdge sol last first, false)
  | 0, sol, _, _ :: _, _ => (sol, false)
  | fuel + 1, sol, last, v :: vs, k =>
    let row : ℕ → ℚ := fun j => prob.entry last j
    let s : ℚ := ((v :: vs).map row).sum
    if s ≤ 0 then (FMatrix.zeros n n, true)
    else
      runAntLoop prob n rng first fuel
        (addEdge sol last (selectNext row (rng.u k * s) last (v :: vs)))
        (selectNext row (rng.u k * s) last (v :: vs))
        ((v :: vs).erase (selectNext row (rng.u k * s) last (v :: vs)))
        (k + 1)

/-- Model of `run_ant(prob: &FMatrix) -> FMatrix` (plus the diagnostic flag).
`first` is drawn by `gen_range(0..n)`; the initial unvisited set is
`{0, …, n-1} \ {first}`. -/
def runAnt (prob : FMatrix ℚ) (rng : Rng) : FMatrix ℚ × Bool :=
  let n := prob.nrows
  let first := rng.nat 0 % n
  let unvisited := (List.range n).erase first
  runAntLoop prob n rng first unvisited.length (FMatrix.zeros n n) first unvisited 0

/-- Model of `Solution { matrix, cost }`.  The file `solution.rs` is not part
of the provided sources; per the spec, solutions are totally ordered by
ascending cost, which the engine model uses below. -/
structure Solution where
  matrix : FMatrix ℚ
  cost : ℚ

/-- Observer events, modelling the probe callbacks of the engine.  The engine
functions return the trace of callbacks they fire, in order. -/
inductive Event where
  | iterationStart (i : ℕ)
  | iterationEnd (i : ℕ)
  | currentBest (s : Solution)
  | newBest (s : Solution)
  | pheromoneUpdate (oldM newM : FMatrix ℚ)
  | ended

/-- Model of `AntSystemCfg`.  `powf` abstracts `f64::powf` (real-valued
exponentiation is not computable; see `calcProbR` for the `Real.rpow`
model used by the claim about `calc_prob`).  `pheromoneUpdate` models the
pluggable `PheromoneUpdate::apply` strategy object. -/
structure AntSystemCfg where
  weights : FMatrix ℚ
  heuristic : FMatrix ℚ
  alpha : ℚ
  beta : ℚ
  evaporationRate : ℚ
  antsNum : ℕ
  iteration : ℕ
  powf : ℚ → ℚ → ℚ
  pheromoneUpdate : FMatrix ℚ → List Solution → ℚ → FMatrix ℚ

/-- Model of the `AntSystem` struct: configuration, current pheromone matrix
and retained best solution. -/
structure AntSystem where
  cfg : AntSystemCfg
  pheromone : FMatrix ℚ
  bestSol : Solution

/-- Model of `calc_prob(p, h) = p.powf(alpha) * h.powf(beta)` (with `powf`
abstracted in the executable engine; `calcProbR` is the `Real.rpow` model). -/
def AntSystem.calcProb (s : AntSystem) (p h : ℚ) : ℚ :=
  s.cfg.powf p s.cfg.alpha * s.cfg.powf h s.cfg.beta

/-- Model of `run_ants`: builds the probability matrix from the pheromone and
heuristic matrices entrywise (`FMatrix::from_iterator` over the zipped
entries, with the pheromone matrix's dimensions), then runs `ants_num`
independent ants.  `rngs a` is the randomness consumed by ant `a`. -/
def AntSystem.runAnts (s : AntSystem) (rngs : ℕ → Rng) : List (FMatrix ℚ) :=
  let prob : FMatrix ℚ :=
    ⟨s.pheromone.nrows, s.pheromone.ncols,
      fun i j => s.calcProb (s.pheromone.entry i j) (s.cfg.heuristic.entry i j)⟩
  (List.range s.cfg.antsNum).map fun a => (runAnt prob (rngs a)).1

/-- Model of `grade_one(s) = s.component_mul(&self.cfg.weights).sum() / 2.0`. -/
def AntSystem.gradeOne (s : AntSystem) (m : FMatrix ℚ) : ℚ :=
  (m.componentMul s.cfg.weights).total / 2

/-- Model of `grade`: pair every constructed matrix with its cost. -/
def AntSystem.grade (s : AntSystem) (ms : List (FMatrix ℚ)) : List Solution :=
  ms.map fun m => ⟨m, s.gradeOne m⟩

/-- Model of `find_best`, i.e. Rust's `Iterator::min_by` with the comparator
`a.partial_cmp(b).unwrap()` on solutions (ordered by ascending cost).
`min_by` folds with `cmp::min_by`, which keeps the earlier element on ties,
so the first minimum in iteration order wins.  On an empty list `min_by`
returns `None` and the subsequent `unwrap` panics, modelled by `none`. -/
def findBest (sols : List Solution) : Option Solution :=
  match sols with
  | [] => none
  | x :: xs => some (xs.foldl (fun acc y => if y.cost < acc.cost then y else acc) x)

/-- Model of `update_best`: replace the retained best (and fire `on_new_best`)
exactly when `best_sol > current_best`, i.e. when the candidate's cost is
strictly lower (solutions are ordered by ascending cost per the spec, the
`PartialOrd` impl being in the absent `solution.rs`). -/
def AntSystem.updateBest (s : AntSystem) (current : Solution) : AntSystem × List Event :=
  if s.bestSol.cost > current.cost then
    ({ s with bestSol := current }, [Event.newBest current])
  else (s, [])

/-- Model of `iterate`: construct and grade the ants, pick the iteration best
(`unwrap` panic modelled as `none`), fire `on_current_best`, update the
retained best, apply the pheromone-update strategy, fire
`on_pheromone_update(old, new)`, and install the returned matrix. -/
def AntSystem.iterate (s : AntSystem) (rngs : ℕ → Rng) :
    Option (AntSystem × List Event) :=
  let sols := s.grade (s.runAnts rngs)
  match findBest sols with
  | none => none
  | some best =>
    let ub := s.updateBest best
    let newPheromone := ub.1.cfg.pheromoneUpdate ub.1.pheromone sols ub.1.cfg.evaporationRate
    some ({ ub.1 with pheromone := newPheromone },
      Event.currentBest best ::
        (ub.2 ++ [Event.pheromoneUpdate ub.1.pheromone newPheromone]))

/-- Model of the iteration loop of `run`: for `i in 0..iteration`, fire
`on_iteration_start(i)`, run `iterate`, fire `on_iteration_end(i)`.
`rngss i` is the randomness consumed by iteration `i`. -/
def AntSystem.runFrom (s : AntSystem) (rngss : ℕ → ℕ → Rng) (i : ℕ) :
    ℕ → Option (AntSystem × List Event)
  | 0 => some (s, [])
  | fuel + 1 =>
    match s.iterate (rngss i) with
    | none => none
    | some (s', ev) =>
      match s'.runFrom rngss (i + 1) fuel with
      | none => none
      | some (s'', tr) =>
        some (s'', (Event.iterationStart i :: (ev ++ [Event.iterationEnd i])) ++ tr)

/-- Model of `run`: the iteration loop followed by `end`, which fires
`on_end`.  Returns the full callback trace (or `none` if an iteration
panicked). -/
def AntSystem.run (s : AntSystem) (rngss : ℕ → ℕ → Rng) : Option (List Event) :=
  match s.runFrom rngss 0 s.cfg.iteration with
  | none => none
  | some (_, tr) => some (tr ++ [Event.ended])

/-! ### Spec-side definitions

Definitions transcribing the specification's wording, used to compare the
embedded code against the spec. -/

/-- Spec-side grading formula: "cost(Solution) = sum_over_all_entries
(adjacency_matrix ⊙ weight_matrix) / 2". -/
def specGrade (M W : FMatrix ℚ) : ℚ :=
  (∑ i ∈ Finset.range M.nrows, ∑ j ∈ Finset.range M.ncols,
    M.entry i j * W.entry i j) / 2

/-- Real-exponent model of `calc_prob`: `p.powf(alpha) * h.powf(beta)` with
`f64::powf` modelled as real exponentiation `Real.rpow` (which also maps
`0 ^ 0` to `1`, matching the floating-point convention the spec documents). -/
noncomputable def calcProbR (alpha beta p h : ℝ) : ℝ :=
  p ^ alpha * h ^ beta

/-- Real-exponent model of the probability-matrix building step of
`run_ants`: the pheromone and heuristic matrices are zipped entrywise and
combined by `calc_prob`, the result carrying the pheromone matrix's
dimensions (`FMatrix::from_iterator(pheromone.nrows(), pheromone.ncols(), …)`). -/
noncomputable def probMatrixR (alpha beta : ℝ) (P H : FMatrix ℝ) : FMatrix ℝ :=
  ⟨P.nrows, P.ncols, fun i j => calcProbR alpha beta (P.entry i j) (H.entry i j)⟩

/-- The last node of a visit sequence starting at `a` and continuing with
`l` (the current node when the construction loop finishes). -/
def lastOf (a : ℕ) : List ℕ → ℕ
  | [] => a
  | b :: l => lastOf b l

/-- The matrix obtained from `sol` by marking the consecutive edges of the
walk `last :: p` (each edge set symmetrically, as `run_ant` does). -/
def tourEdges (sol : FMatrix ℚ) (last : ℕ) : List ℕ → FMatrix ℚ
  | [] => sol
  | v :: vs => tourEdges (addEdge sol last v) v vs

/-- `(i, j)` matches some pair of `E`, in either orientation. -/
def symMem (E : List (ℕ × ℕ)) (i j : ℕ) : Prop :=
  ∃ pr ∈ E, pr = (i, j) ∨ pr = (j, i)

instance instDecidableSymMem (E : List (ℕ × ℕ)) (i j : ℕ) : Decidable (symMem E i j) :=
  List.decidableBEx _ E

/-- `(i, j)` is an edge of the closed cycle through the nodes of `c` in
order: some cyclically consecutive pair of `c` equals `(i, j)` or `(j, i)`. -/
def InCyc (c : List ℕ) (i j : ℕ) : Prop :=
  symMem (c.zip (c.rotate 1)) i j

instance instDecidableInCyc (c : List ℕ) (i j : ℕ) : Decidable (InCyc c i j) :=
  instDecidableSymMem _ i j

/-- Cyclic indexing into a node list: the entry at position `k mod length`
(defaulting to 0 for the empty list). -/
def cycGet (c : List ℕ) (k : ℕ) : ℕ :=
  c.getD (k % c.length) 0

/-- Spec-side statement that `M` represents a single Hamiltonian cycle over
`n` nodes: its 1-entries are exactly the edges of one closed cycle visiting
every node exactly once (which excludes sub-cycles). -/
def IsHamCycleMatrix (n : ℕ) (M : FMatrix ℚ) : Prop :=
  ∃ c : List ℕ, c.Nodup ∧ c.length = n ∧ (∀ v, v ∈ c ↔ v < n) ∧
    ∀ i j, M.entry i j = 1 ↔ InCyc c i j

/-- Spec-side callback trace of one iteration (§4.5, steps 1–9): iteration
start, current best, new best exactly when the retained best improves,
pheromone update with the old and new matrices, iteration end. -/
def specIterTrace (st : AntSystem) (best : Solution) (newP : FMatrix ℚ) (i : ℕ) :
    List Event :=
  Event.iterationStart i :: Event.currentBest best ::
    ((if best.cost < st.bestSol.cost then [Event.newBest best] else []) ++
      [Event.pheromoneUpdate st.pheromone newP, Event.iterationEnd i])

/-- Spec-side state after one iteration: the pheromone matrix is replaced by
the strategy's result and the retained best by the iteration best when it
improves. -/
def specNextState (st : AntSystem) (best : Solution) (newP : FMatrix ℚ) : AntSystem :=
  ⟨st.cfg, newP, if best.cost < st.bestSol.cost then best else st.bestSol⟩

/-- Spec-side shape of the callback trace of a full run starting at
iteration `i` in state `st`: a sequence of per-iteration blocks, each of the
§4.5 shape, chained through the spec-side state transitions, ending in state
`fin`. -/
def BlocksFrom (rngss : ℕ → ℕ → Rng) : ℕ → AntSystem → List (List Event) → AntSystem → Prop
  | _, st, [], fin => st = fin
  | i, st, b :: rest, fin =>
    ∃ best,
      findBest (st.grade (st.runAnts (rngss i))) = some best ∧
      b = specIterTrace st best
            (st.cfg.pheromoneUpdate st.pheromone
              (st.grade (st.runAnts (rngss i))) st.cfg.evaporationRate) i ∧
      BlocksFrom rngss (i + 1)
        (specNextState st best
          (st.cfg.pheromoneUpdate st.pheromone
            (st.grade (st.runAnts (rngss i))) st.cfg.evaporationRate))
        rest fin

/-! ### Concrete instances

Concrete matrices, random streams and configured systems used to evaluate
the embedded code on explicit inputs. -/

/-- A deterministic random stream: every `gen_range(0..n)` draw returns `0`
and every `gen_range(0.0..sum)` draw returns `0.0` (the low end of the
half-open interval, which is a legal value of `gen_range`). -/
def rng0 : Rng :=
  ⟨fun _ => 0, fun _ => 0, fun _ => le_refl 0, fun _ => by norm_num⟩

/-- The constant family of random streams used by concrete runs. -/
def rngF : ℕ → Rng := fun _ => rng0

/-- The constant family of per-iteration random streams. -/
def rngss0 : ℕ → ℕ → Rng := fun _ _ => rng0

/-- The all-ones `n × n` matrix. -/
def onesM (n : ℕ) : FMatrix ℚ :=
  ⟨n, n, fun _ _ => 1⟩

/-- A simple configuration over the all-ones `n × n` matrices with an
identity-like pheromone-update strategy. -/
def cfgW (ants iters n : ℕ) : AntSystemCfg :=
  { weights := onesM n, heuristic := onesM n, alpha := 1, beta := 1,
    evaporationRate := 0, antsNum := ants, iteration := iters,
    powf := fun p _ => p, pheromoneUpdate := fun p _ _ => p }

/-- A concretely configured system over `n` nodes with a large initial best
cost. -/
def sysW (ants iters n : ℕ) : AntSystem :=
  { cfg := cfgW ants iters n, pheromone := onesM n,
    bestSol := ⟨FMatrix.zeros n n, 100⟩ }

/-- A pheromone-update strategy returning a matrix of the wrong dimensions
(`3 × 3` regardless of its input). -/
def badStrategy : FMatrix ℚ → List Solution → ℚ → FMatrix ℚ :=
  fun _ _ _ => FMatrix.zeros 3 3

/-- A `2 × 2` system whose update strategy returns a `3 × 3` matrix. -/
def sysBad : AntSystem :=
  { cfg := { cfgW 1 1 2 with pheromoneUpdate := badStrategy },
    pheromone := onesM 2, bestSol := ⟨FMatrix.zeros 2 2, 100⟩ }

/-- A two-solution population with distinct costs. -/
def solA : Solution := ⟨onesM 1, 5⟩

/-- A second solution, cheaper than `solA`. -/
def solB : Solution := ⟨onesM 1, 3⟩

/-! ### Helper lemmas -/

/-- A finite sum of integer-valued rationals is integer-valued. -/
theorem exists_int_sum (s : Finset ℕ) (f : ℕ → ℚ)
    (h : ∀ x ∈ s, ∃ z : ℤ, f x = z) : ∃ z : ℤ, ∑ x ∈ s, f x = z := by
  classical
  induction s using Finset.induction_on with
  | empty => exact ⟨0, by simp⟩
  | @insert a s ha ih =>
    obtain ⟨z, hz⟩ := h a (Finset.mem_insert_self a s)
    obtain ⟨w, hw⟩ := ih fun x hx => h x (Finset.mem_insert_of_mem hx)
    exact ⟨z + w, by rw [Finset.sum_insert ha, hz, hw]; push_cast; ring⟩

/-- The fold underlying `min_by` returns the first minimum: the accumulator
decomposes the traversed list into a strictly-more-expensive prefix, the
result, and a suffix, with the result no more expensive than anything. -/
theorem foldl_min_first (xs : List Solution) : ∀ x : Solution,
    ∃ l1 l2,
      x :: xs = l1 ++ (xs.foldl (fun acc y => if y.cost < acc.cost then y else acc) x) :: l2 ∧
      (∀ y ∈ l1, (xs.foldl (fun acc y => if y.cost < acc.cost then y else acc) x).cost < y.cost) ∧
      (∀ y ∈ x :: xs, (xs.foldl (fun acc y => if y.cost < acc.cost then y else acc) x).cost ≤ y.cost) := by
  induction xs with
  | nil =>
    intro x
    exact ⟨[], [], rfl, by simp, by simp⟩
  | cons y ys ih =>
    intro x
    by_cases hy : y.cost < x.cost
    · obtain ⟨l1, l2, hdec, hlt, hle⟩ := ih y
      have hfx : ((y :: ys).foldl (fun acc z => if z.cost < acc.cost then z else acc) x)
          = ys.foldl (fun acc z => if z.cost < acc.cost then z else acc) y := by
        simp [List.foldl_cons, hy]
      rw [hfx]
      have hry : (ys.foldl (fun acc z => if z.cost < acc.cost then z else acc) y).cost ≤ y.cost :=
        hle y (List.mem_cons_self _ _)
      refine ⟨x :: l1, l2, ?_, ?_, ?_⟩
      · rw [List.cons_append, ← hdec]
      · intro z hz
        rcases List.mem_cons.mp hz with rfl | hzl
        · exact lt_of_le_of_lt hry hy
        · exact hlt z hzl
      · intro z hz
        rcases List.mem_cons.mp hz with rfl | hzl
        · exact le_of_lt (lt_of_le_of_lt hry hy)
        · exact hle z hzl
    · obtain ⟨l1, l2, hdec, hlt, hle⟩ := ih x
      have hfx : ((y :: ys).foldl (fun acc z => if z.cost < acc.cost then z else acc) x)
          = ys.foldl (fun acc z => if z.cost < acc.cost then z else acc) x := by
        simp [List.foldl_cons, hy]
      rw [hfx]
      have hxy : x.cost ≤ y.cost := le_of_not_lt hy
      cases l1 with
      | nil =>
        obtain ⟨hr, hl2⟩ := List.cons_eq_cons.mp (by simpa using hdec)
        refine ⟨[], y :: l2, ?_, by simp, ?_⟩
        · simp only [List.nil_append]
          rw [← hr, ← hl2]
        · intro z hz
          rcases List.mem_cons.mp hz with rfl | hzl
          · exact hle _ (List.mem_cons_self _ _)
          · rcases List.mem_cons.mp hzl with rfl | hzys
            · exact le_trans (hle _ (List.mem_cons_self _ _)) hxy
            · exact hle z (List.mem_cons_of_mem x hzys)
      | cons a l1' =>
        obtain ⟨hax, hys⟩ := List.cons_eq_cons.mp (by simpa using hdec)
        have hxlt : (ys.foldl (fun acc z => if z.cost < acc.cost then z else acc) x).cost
            < x.cost := by
          have := hlt a (List.mem_cons_self _ _)
          rwa [← hax] at this
        refine ⟨x :: y :: l1', l2, ?_, ?_, ?_⟩
        · calc x :: y :: ys
              = x :: y :: (l1' ++ (ys.foldl (fun acc z => if z.cost < acc.cost then z else acc) x) :: l2) := by rw [← hys]
            _ = (x :: y :: l1') ++ (ys.foldl (fun acc z => if z.cost < acc.cost then z else acc) x) :: l2 := by simp
        · intro z hz
          rcases List.mem_cons.mp hz with rfl | hzl
          · exact hxlt
          · rcases List.mem_cons.mp hzl with rfl | hzl1
            · exact lt_of_lt_of_le hxlt hxy
            · exact hlt z (List.mem_cons_of_mem a hzl1)
        · intro z hz
          rcases List.mem_cons.mp hz with rfl | hzl
          · exact le_of_lt hxlt
          · rcases List.mem_cons.mp hzl with rfl | hzys
            · exact le_trans (le_of_lt hxlt) hxy
            · exact hle z (List.mem_cons_of_mem x hzys)

/-! ### Claims -/

/-- C1: for every solution adjacency matrix `M` and configured weight matrix
`W` of identical dimensions, `grade_one` returns exactly the sum of the
entrywise product `M ⊙ W` divided by 2, and for integer-valued entries the
result is the exact half-integer (twice the grade is an integer). -/
theorem grade_one_matches_spec (s : AntSystem) (M : FMatrix ℚ)
    (_h1 : M.nrows = s.cfg.weights.nrows) (_h2 : M.ncols = s.cfg.weights.ncols) :
    s.gradeOne M = specGrade M s.cfg.weights ∧
    ((∀ i j, ∃ z : ℤ, M.entry i j = z) →
      (∀ i j, ∃ z : ℤ, s.cfg.weights.entry i j = z) →
      ∃ z : ℤ, 2 * s.gradeOne M = z) := by
  constructor
  · rfl
  · intro hM hW
    have hsum : ∃ z : ℤ, (M.componentMul s.cfg.weights).total = z := by
      apply exists_int_sum
      intro i _
      apply exists_int_sum
      intro j _
      obtain ⟨a, ha⟩ := hM i j
      obtain ⟨b, hb⟩ := hW i j
      exact ⟨a * b, by simp [FMatrix.componentMul, ha, hb]⟩
    obtain ⟨z, hz⟩ := hsum
    refine ⟨z, ?_⟩
    have : 2 * ((M.componentMul s.cfg.weights).total / 2)
        = (M.componentMul s.cfg.weights).total := by ring
    rw [AntSystem.gradeOne, this, hz]

/-- Witness for C1 at a concrete matrix and system. -/
theorem grade_one_matches_spec_w :
    (onesM 2).nrows = (sysW 1 1 2).cfg.weights.nrows ∧
    (onesM 2).ncols = (sysW 1 1 2).cfg.weights.ncols ∧
    ((sysW 1 1 2).gradeOne (onesM 2) = specGrade (onesM 2) (sysW 1 1 2).cfg.weights ∧
      ((∀ i j, ∃ z : ℤ, (onesM 2).entry i j = z) →
        (∀ i j, ∃ z : ℤ, (sysW 1 1 2).cfg.weights.entry i j = z) →
        ∃ z : ℤ, 2 * (sysW 1 1 2).gradeOne (onesM 2) = z)) :=
  ⟨rfl, rfl, grade_one_matches_spec (sysW 1 1 2) (onesM 2) rfl rfl⟩

/-- C2: for pheromone and heuristic matrices of identical dimensions and
non-negative exponents, the probability-matrix building step produces a
matrix of the same dimensions whose entry `(i, j)` is
`P[i,j] ^ alpha * H[i,j] ^ beta`, with every entry non-negative whenever all
entries of `P` and `H` are non-negative. -/
theorem calc_prob_spec (alpha beta : ℝ) (P H : FMatrix ℝ)
    (hr : P.nrows = H.nrows) (hc : P.ncols = H.ncols)
    (_ha : 0 ≤ alpha) (_hb : 0 ≤ beta)
    (hP : ∀ i j, 0 ≤ P.entry i j) (hH : ∀ i j, 0 ≤ H.entry i j) :
    (probMatrixR alpha beta P H).nrows = P.nrows ∧
    (probMatrixR alpha beta P H).ncols = P.ncols ∧
    (probMatrixR alpha beta P H).nrows = H.nrows ∧
    (probMatrixR alpha beta P H).ncols = H.ncols ∧
    (∀ i j, (probMatrixR alpha beta P H).entry i j
      = P.entry i j ^ alpha * H.entry i j ^ beta) ∧
    (∀ i j, 0 ≤ (probMatrixR alpha beta P H).entry i j) :=
  ⟨rfl, rfl, hr, hc, fun _ _ => rfl,
    fun i j => mul_nonneg (Real.rpow_nonneg (hP i j) alpha)
      (Real.rpow_nonneg (hH i j) beta)⟩

/-- Witness for C2 at concrete all-ones `1 × 1` real matrices. -/
theorem calc_prob_spec_w :
    (FMatrix.nrows ⟨1, 1, fun _ _ => (1 : ℝ)⟩ = FMatrix.nrows ⟨1, 1, fun _ _ => (1 : ℝ)⟩) ∧
    (0 : ℝ) ≤ 1 ∧
    (∀ i j, (probMatrixR 1 1 ⟨1, 1, fun _ _ => (1 : ℝ)⟩ ⟨1, 1, fun _ _ => (1 : ℝ)⟩).entry i j
      = FMatrix.entry ⟨1, 1, fun _ _ => (1 : ℝ)⟩ i j ^ (1 : ℝ)
        * FMatrix.entry ⟨1, 1, fun _ _ => (1 : ℝ)⟩ i j ^ (1 : ℝ)) ∧
    (∀ i j, 0 ≤ (probMatrixR 1 1 ⟨1, 1, fun _ _ => (1 : ℝ)⟩ ⟨1, 1, fun _ _ => (1 : ℝ)⟩).entry i j) :=
  ⟨rfl, by norm_num,
    (calc_prob_spec 1 1 ⟨1, 1, fun _ _ => (1 : ℝ)⟩ ⟨1, 1, fun _ _ => (1 : ℝ)⟩
      rfl rfl (by norm_num) (by norm_num)
      (fun _ _ => by norm_num) (fun _ _ => by norm_num)).2.2.2.2.1,
    (calc_prob_spec 1 1 ⟨1, 1, fun _ _ => (1 : ℝ)⟩ ⟨1, 1, fun _ _ => (1 : ℝ)⟩
      rfl rfl (by norm_num) (by norm_num)
      (fun _ _ => by norm_num) (fun _ _ => by norm_num)).2.2.2.2.2⟩

/-- C3: the retained global best is replaced (by the iteration best) exactly
when the iteration best's cost is strictly lower, `on_new_best` fires exactly
on that replacement, the retained best's cost never increases (also across a
whole `iterate`), and the best is never replaced by an equal-or-worse
candidate. -/
theorem update_best_spec (s : AntSystem) (cur : Solution) :
    ((s.updateBest cur).1.bestSol = if cur.cost < s.bestSol.cost then cur else s.bestSol) ∧
    ((s.updateBest cur).2 = if cur.cost < s.bestSol.cost then [Event.newBest cur] else []) ∧
    ((s.updateBest cur).1.bestSol.cost ≤ s.bestSol.cost) ∧
    (∀ rngs : ℕ → Rng,
      (s.iterate rngs).elim True fun x => x.1.bestSol.cost ≤ s.bestSol.cost) := by
  have key : ∀ c : Solution,
      ((s.updateBest c).1.bestSol = if c.cost < s.bestSol.cost then c else s.bestSol) ∧
      ((s.updateBest c).2 = if c.cost < s.bestSol.cost then [Event.newBest c] else []) := by
    intro c
    simp only [AntSystem.updateBest, gt_iff_lt]
    split_ifs with h <;> exact ⟨rfl, rfl⟩
  have key2 : ∀ c : Solution, (s.updateBest c).1.bestSol.cost ≤ s.bestSol.cost := by
    intro c
    rw [(key c).1]
    split_ifs with h
    · exact le_of_lt h
    · exact le_refl _
  refine ⟨(key cur).1, (key cur).2, key2 cur, ?_⟩
  intro rngs
  cases hfb : findBest (s.grade (s.runAnts rngs)) with
  | none => simp [AntSystem.iterate, hfb]
  | some best =>
    simp only [AntSystem.iterate, hfb, Option.elim]
    exact key2 best

/-- C4: for every non-empty list of graded solutions, `find_best` selects the
minimum-cost solution, and among equal minima the first-encountered one in
population order: the list splits into a strictly-more-expensive prefix, the
selected solution, and a suffix. -/
theorem find_best_spec (sols : List Solution) (h : sols ≠ []) :
    ∃ b l1 l2, findBest sols = some b ∧ sols = l1 ++ b :: l2 ∧
      (∀ y ∈ l1, b.cost < y.cost) ∧ (∀ y ∈ sols, b.cost ≤ y.cost) := by
  cases sols with
  | nil => exact absurd rfl h
  | cons x xs =>
    obtain ⟨l1, l2, h1, h2, h3⟩ := foldl_min_first xs x
    exact ⟨_, l1, l2, rfl, h1, h2, h3⟩

/-- Witness for C4: a concrete two-solution population. -/
theorem find_best_spec_w :
    [solA, solB] ≠ [] ∧
    ∃ b l1 l2, findBest [solA, solB] = some b ∧ [solA, solB] = l1 ++ b :: l2 ∧
      (∀ y ∈ l1, b.cost < y.cost) ∧ (∀ y ∈ [solA, solB], b.cost ≤ y.cost) :=
  ⟨by simp, find_best_spec [solA, solB] (by simp)⟩

/-- C5: if at some step of an ant's construction the summed weight from the
current node to the unvisited nodes is zero, the construction aborts with the
all-zero `n × n` sentinel matrix and the diagnostic flag set (no error is
raised — `runAntLoop` returns normally), and the iteration still constructs
and grades all `ants_num` ants. -/
theorem construction_degeneracy (prob : FMatrix ℚ) (n : ℕ) (rng : Rng)
    (first : ℕ) (sol : FMatrix ℚ) (last v : ℕ) (vs : List ℕ) (k : ℕ)
    (hsum : (((v :: vs).map fun j => prob.entry last j)).sum = 0) :
    runAntLoop prob n rng first (v :: vs).length sol last (v :: vs) k
      = (FMatrix.zeros n n, true) ∧
    ∀ (s : AntSystem) (rngs : ℕ → Rng),
      (s.grade (s.runAnts rngs)).length = s.cfg.antsNum := by
  constructor
  · simp only [List.length_cons, runAntLoop, hsum, le_refl, if_pos]
  · intro s rngs
    simp [AntSystem.grade, AntSystem.runAnts]

/-- Witness for C5 at a concrete all-zero weight matrix. -/
theorem construction_degeneracy_w :
    ((([1] : List ℕ).map fun j => (FMatrix.zeros 2 2 : FMatrix ℚ).entry 0 j)).sum = 0 ∧
    (runAntLoop (FMatrix.zeros 2 2) 2 rng0 0 ([1] : List ℕ).length
        (FMatrix.zeros 2 2) 0 [1] 0 = (FMatrix.zeros 2 2, true) ∧
      ∀ (s : AntSystem) (rngs : ℕ → Rng),
        (s.grade (s.runAnts rngs)).length = s.cfg.antsNum) :=
  ⟨by simp [FMatrix.zeros],
    construction_degeneracy (FMatrix.zeros 2 2) 2 rng0 0 (FMatrix.zeros 2 2) 0 1 [] 0
      (by simp [FMatrix.zeros])⟩

/-- C10: `find_best` unwraps both the pairwise comparison and the minimum, so
an empty iteration population (`ants_num = 0`) panics (modelled as `none`),
while `ants_num ≥ 1` guarantees the panic branch is unreachable and every
iteration yields an iteration best (costs are exact rationals here, so the
NaN-comparison panic has no counterpart). -/
theorem find_best_unwrap (s : AntSystem) (rngs : ℕ → Rng) :
    (s.cfg.antsNum = 0 → s.iterate rngs = none) ∧
    (1 ≤ s.cfg.antsNum → ∃ x, s.iterate rngs = some x) := by
  constructor
  · intro h0
    simp [AntSystem.iterate, AntSystem.grade, AntSystem.runAnts, h0, findBest]
  · intro h1
    have hlen : (s.grade (s.runAnts rngs)).length = s.cfg.antsNum := by
      simp [AntSystem.grade, AntSystem.runAnts]
    cases hs : s.grade (s.runAnts rngs) with
    | nil => rw [hs] at hlen; simp at hlen; omega
    | cons a as =>
      simp only [AntSystem.iterate, hs, findBest]
      exact ⟨_, rfl⟩

/-- Witness for C10: a system with `ants_num = 0` panics in `iterate`. -/
theorem find_best_unwrap_w :
    (sysW 0 1 2).cfg.antsNum = 0 ∧ (sysW 0 1 2).iterate rngF = none :=
  ⟨rfl, (find_best_unwrap (sysW 0 1 2) rngF).1 rfl⟩

/-- C6 counterexample: a `2 × 2` system whose update strategy returns a
`3 × 3` matrix.  `iterate` installs the mismatched matrix as the new
pheromone matrix and the run completes normally — no error is detected or
propagated, contradicting the claimed fatal `StrategyShapeError`. -/
theorem strategy_shape_not_checked :
    sysBad.pheromone.nrows = 2 ∧
    ((sysBad.iterate rngF).map fun x => x.1.pheromone.nrows) = some 3 ∧
    (sysBad.run rngss0).isSome = true := by
  refine ⟨rfl, ?_, ?_⟩ <;>
    norm_num [AntSystem.iterate, AntSystem.run, AntSystem.runFrom, AntSystem.grade,
      AntSystem.runAnts, AntSystem.gradeOne, AntSystem.calcProb, AntSystem.updateBest,
      runAnt, runAntLoop, selectNext, addEdge, findBest, sysBad, cfgW, badStrategy,
      onesM, rng0, rngF, rngss0, FMatrix.set, FMatrix.zeros, FMatrix.componentMul,
      FMatrix.total, List.range_succ, Finset.sum_range_succ]

/-- C6 (amended): the engine performs no dimension check on the
pheromone-update strategy's result; whatever matrix the strategy returns is
installed unconditionally as the new pheromone matrix. -/
theorem strategy_result_installed (s : AntSystem) (rngs : ℕ → Rng)
    (h : (s.iterate rngs).isSome = true) :
    (s.iterate rngs).map (fun x => x.1.pheromone)
      = some (s.cfg.pheromoneUpdate s.pheromone
          (s.grade (s.runAnts rngs)) s.cfg.evaporationRate) := by
  have hcfg : ∀ c : Solution, (s.updateBest c).1.cfg = s.cfg := by
    intro c; unfold AntSystem.updateBest; split_ifs <;> rfl
  have hph : ∀ c : Solution, (s.updateBest c).1.pheromone = s.pheromone := by
    intro c; unfold AntSystem.updateBest; split_ifs <;> rfl
  cases hfb : findBest (s.grade (s.runAnts rngs)) with
  | none => simp [AntSystem.iterate, hfb] at h
  | some best =>
    simp only [AntSystem.iterate, hfb, Option.map_some]
    rw [hcfg best, hph best]
    rfl

/-- Witness for C6's amended theorem at the concrete mismatched-strategy
system. -/
theorem strategy_result_installed_w :
    (sysBad.iterate rngF).isSome = true ∧
    (sysBad.iterate rngF).map (fun x => x.1.pheromone)
      = some (sysBad.cfg.pheromoneUpdate sysBad.pheromone
          (sysBad.grade (sysBad.runAnts rngF)) sysBad.cfg.evaporationRate) := by
  have h : (sysBad.iterate rngF).isSome = true := by
    norm_num [AntSystem.iterate, AntSystem.grade, AntSystem.runAnts,
      AntSystem.gradeOne, AntSystem.calcProb, AntSystem.updateBest, runAnt,
      runAntLoop, selectNext, addEdge, findBest, sysBad, cfgW, badStrategy, onesM,
      rng0, rngF, FMatrix.set, FMatrix.zeros, FMatrix.componentMul, FMatrix.total,
      List.range_succ, Finset.sum_range_succ]
  exact ⟨h, strategy_result_installed sysBad rngF h⟩

/-- C9 counterexample: a zero-iteration run fires exactly one callback, the
final `on_end` — there is no separate start notification, contradicting the
claim that both a start and an end notification fire. -/
theorem zero_iteration_single_event :
    (sysW 1 0 2).cfg.iteration = 0 ∧
    ((sysW 1 0 2).run rngss0).map List.length = some 1 ∧
    (sysW 1 0 2).run rngss0 = some [Event.ended] := by
  refine ⟨rfl, ?_, ?_⟩ <;> simp [AntSystem.run, AntSystem.runFrom, sysW, cfgW]

/-- C9 (amended): a zero-iteration run performs no iteration at all — the
loop state (in particular the pheromone matrix) is returned unchanged with an
empty iteration trace, so no ant construction or grading happens — and the
only callback fired is the final `on_end`. -/
theorem zero_iteration_run (s : AntSystem) (rngss : ℕ → ℕ → Rng)
    (h : s.cfg.iteration = 0) :
    s.run rngss = some [Event.ended] ∧
    s.runFrom rngss 0 s.cfg.iteration = some (s, []) := by
  constructor
  · simp [AntSystem.run, AntSystem.runFrom, h]
  · rw [h]
    rfl

/-- Witness for C9's amended theorem at a concrete zero-iteration system. -/
theorem zero_iteration_run_w :
    (sysW 2 0 3).cfg.iteration = 0 ∧
    ((sysW 2 0 3).run rngss0 = some [Event.ended] ∧
      (sysW 2 0 3).runFrom rngss0 0 (sysW 2 0 3).cfg.iteration = some (sysW 2 0 3, [])) :=
  ⟨rfl, zero_iteration_run (sysW 2 0 3) rngss0 rfl⟩

/-- `update_best` never touches the configuration. -/
theorem updateBest_cfg (s : AntSystem) (c : Solution) :
    (s.updateBest c).1.cfg = s.cfg := by
  unfold AntSystem.updateBest; split_ifs <;> rfl

/-- `update_best` never touches the pheromone matrix. -/
theorem updateBest_pheromone (s : AntSystem) (c : Solution) :
    (s.updateBest c).1.pheromone = s.pheromone := by
  unfold AntSystem.updateBest; split_ifs <;> rfl

/-- The retained best after `update_best` is the cheaper of the old best and
the candidate (the candidate winning only on strict improvement). -/
theorem updateBest_bestSol (s : AntSystem) (c : Solution) :
    (s.updateBest c).1.bestSol = if c.cost < s.bestSol.cost then c else s.bestSol := by
  simp only [AntSystem.updateBest, gt_iff_lt]
  split_ifs <;> rfl

/-- The events fired by `update_best`: `on_new_best` exactly on strict
improvement. -/
theorem updateBest_events (s : AntSystem) (c : Solution) :
    (s.updateBest c).2 = if c.cost < s.bestSol.cost then [Event.newBest c] else [] := by
  simp only [AntSystem.updateBest, gt_iff_lt]
  split_ifs <;> rfl

/-- Characterisation of one `iterate` step when the iteration best exists:
the resulting state is the spec-side next state and the fired events are
current-best, optional new-best, then pheromone-update with the old and new
matrices. -/
theorem iterate_eq (s : AntSystem) (rngs : ℕ → Rng) (best : Solution)
    (hfb : findBest (s.grade (s.runAnts rngs)) = some best) :
    s.iterate rngs = some
      (specNextState s best
        (s.cfg.pheromoneUpdate s.pheromone (s.grade (s.runAnts rngs)) s.cfg.evaporationRate),
      Event.currentBest best ::
        ((if best.cost < s.bestSol.cost then [Event.newBest best] else []) ++
          [Event.pheromoneUpdate s.pheromone
            (s.cfg.pheromoneUpdate s.pheromone (s.grade (s.runAnts rngs)) s.cfg.evaporationRate)])) := by
  simp only [AntSystem.iterate, hfb]
  rw [updateBest_cfg, updateBest_pheromone, updateBest_events]
  unfold specNextState
  rw [← updateBest_bestSol]

/-- Unfolding of one pass of the iteration loop. -/
theorem runFrom_succ (s : AntSystem) (rngss : ℕ → ℕ → Rng) (i fuel : ℕ) :
    s.runFrom rngss i (fuel + 1)
      = match s.iterate (rngss i) with
        | none => none
        | some (s', ev) =>
          match s'.runFrom rngss (i + 1) fuel with
          | none => none
          | some (s'', tr) =>
            some (s'', (Event.iterationStart i :: (ev ++ [Event.iterationEnd i])) ++ tr) :=
  rfl

/-- The per-iteration callback block never contains `on_end`. -/
theorem ended_not_mem_specIterTrace (st : AntSystem) (best : Solution)
    (newP : FMatrix ℚ) (i : ℕ) : Event.ended ∉ specIterTrace st best newP i := by
  unfold specIterTrace
  split_ifs <;> simp

/-- The iteration loop, run with `ants_num ≥ 1` for `fuel` iterations starting
at index `i`, succeeds and produces a trace that is the concatenation of
`fuel` per-iteration blocks of the §4.5 shape, chained through the spec-side
state transitions, with no `on_end` inside. -/
theorem runFrom_blocks (rngss : ℕ → ℕ → Rng) :
    ∀ (fuel : ℕ) (s : AntSystem) (i : ℕ), 1 ≤ s.cfg.antsNum →
    ∃ fin blocks, s.runFrom rngss i fuel = some (fin, blocks.flatten) ∧
      blocks.length = fuel ∧ BlocksFrom rngss i s blocks fin ∧
      Event.ended ∉ blocks.flatten := by
  intro fuel
  induction fuel with
  | zero =>
    intro s i _
    exact ⟨s, [], rfl, rfl, rfl, by simp⟩
  | succ fuel ih =>
    intro s i h
    have hlen : (s.grade (s.runAnts (rngss i))).length = s.cfg.antsNum := by
      simp [AntSystem.grade, AntSystem.runAnts]
    obtain ⟨best, hfb⟩ : ∃ b, findBest (s.grade (s.runAnts (rngss i))) = some b := by
      cases hsols : s.grade (s.runAnts (rngss i)) with
      | nil => rw [hsols] at hlen; simp at hlen; omega
      | cons a as => exact ⟨_, by rw [findBest]⟩
    have hit := iterate_eq s (rngss i) best hfb
    obtain ⟨fin, blocks, hrun, hlen2, hblocks, hmem⟩ :=
      ih (specNextState s best
        (s.cfg.pheromoneUpdate s.pheromone (s.grade (s.runAnts (rngss i)))
          s.cfg.evaporationRate)) (i + 1) h
    refine ⟨fin,
      specIterTrace s best
        (s.cfg.pheromoneUpdate s.pheromone (s.grade (s.runAnts (rngss i)))
          s.cfg.evaporationRate) i :: blocks, ?_, ?_, ?_, ?_⟩
    · rw [runFrom_succ, hit]
      simp [hrun, specIterTrace]
    · simp [hlen2]
    · exact ⟨best, hfb, rfl, hblocks⟩
    · simp only [List.flatten_cons, List.mem_append]
      rintro (hb | hj)
      · exact ended_not_mem_specIterTrace _ _ _ _ hb
      · exact hmem hj

/-- C8: for every run with `ants_num ≥ 1`, the callback trace is, for each
iteration `i` in order: `on_iteration_start(i)`, `on_current_best` with the
iteration best, `on_new_best` exactly when the retained best improves,
`on_pheromone_update` with the old and the newly installed pheromone matrix
(the stored matrix being replaced before the next block starts, as the
chained spec-side states record), then `on_iteration_end(i)`; and after all
iterations `on_end` fires exactly once, at the very end. -/
theorem run_trace_shape (s : AntSystem) (rngss : ℕ → ℕ → Rng)
    (h : 1 ≤ s.cfg.antsNum) :
    ∃ fin blocks,
      s.runFrom rngss 0 s.cfg.iteration = some (fin, blocks.flatten) ∧
      s.run rngss = some (blocks.flatten ++ [Event.ended]) ∧
      blocks.length = s.cfg.iteration ∧
      BlocksFrom rngss 0 s blocks fin ∧
      Event.ended ∉ blocks.flatten := by
  obtain ⟨fin, blocks, h1, h2, h3, h4⟩ := runFrom_blocks rngss s.cfg.iteration s 0 h
  exact ⟨fin, blocks, h1, by simp [AntSystem.run, h1], h2, h3, h4⟩

/-- Witness for C8 at a concrete two-iteration, one-ant system. -/
theorem run_trace_shape_w :
    1 ≤ (sysW 1 2 3).cfg.antsNum ∧
    ∃ fin blocks,
      (sysW 1 2 3).runFrom rngss0 0 (sysW 1 2 3).cfg.iteration = some (fin, blocks.flatten) ∧
      (sysW 1 2 3).run rngss0 = some (blocks.flatten ++ [Event.ended]) ∧
      blocks.length = (sysW 1 2 3).cfg.iteration ∧
      BlocksFrom rngss0 0 (sysW 1 2 3) blocks fin ∧
      Event.ended ∉ blocks.flatten :=
  ⟨by decide, run_trace_shape (sysW 1 2 3) rngss0 (by decide)⟩

/-! ### Structure of constructed tours (C7) -/

theorem addEdge_entry (M : FMatrix ℚ) (a b i j : ℕ) :
    (addEdge M a b).entry i j
      = if (i = a ∧ j = b) ∨ (i = b ∧ j = a) then 1 else M.entry i j := by
  simp only [addEdge, FMatrix.set]
  split_ifs <;> tauto

theorem addEdge_nrows (M : FMatrix ℚ) (a b : ℕ) : (addEdge M a b).nrows = M.nrows := rfl

theorem addEdge_ncols (M : FMatrix ℚ) (a b : ℕ) : (addEdge M a b).ncols = M.ncols := rfl

theorem tourEdges_nrows (p : List ℕ) : ∀ (sol : FMatrix ℚ) (last : ℕ),
    (tourEdges sol last p).nrows = sol.nrows := by
  induction p with
  | nil => intro sol last; rfl
  | cons v vs ih => intro sol last; exact ih (addEdge sol last v) v

theorem tourEdges_ncols (p : List ℕ) : ∀ (sol : FMatrix ℚ) (last : ℕ),
    (tourEdges sol last p).ncols = sol.ncols := by
  induction p with
  | nil => intro sol last; rfl
  | cons v vs ih => intro sol last; exact ih (addEdge sol last v) v

theorem symMem_nil (i j : ℕ) : ¬ symMem [] i j := by
  simp [symMem]

theorem symMem_cons (a b : ℕ) (E : List (ℕ × ℕ)) (i j : ℕ) :
    symMem ((a, b) :: E) i j
      ↔ ((i = a ∧ j = b) ∨ (i = b ∧ j = a)) ∨ symMem E i j := by
  unfold symMem
  constructor
  · rintro ⟨pr, hm, hor⟩
    rcases List.mem_cons.mp hm with heq | hm'
    · subst heq
      rcases hor with h | h
      · obtain ⟨h1, h2⟩ := Prod.ext_iff.mp h
        exact Or.inl (Or.inl ⟨h1.symm, h2.symm⟩)
      · obtain ⟨h1, h2⟩ := Prod.ext_iff.mp h
        exact Or.inl (Or.inr ⟨h2.symm, h1.symm⟩)
    · exact Or.inr ⟨pr, hm', hor⟩
  · rintro ((⟨h1, h2⟩ | ⟨h1, h2⟩) | ⟨pr, hm', hor⟩)
    · exact ⟨(a, b), List.mem_cons_self _ _, Or.inl (by rw [h1, h2])⟩
    · exact ⟨(a, b), List.mem_cons_self _ _, Or.inr (by rw [h1, h2])⟩
    · exact ⟨pr, List.mem_cons_of_mem _ hm', hor⟩

theorem symMem_append (E1 E2 : List (ℕ × ℕ)) (i j : ℕ) :
    symMem (E1 ++ E2) i j ↔ symMem E1 i j ∨ symMem E2 i j := by
  unfold symMem
  constructor
  · rintro ⟨pr, hm, hor⟩
    rcases List.mem_append.mp hm with hm' | hm'
    · exact Or.inl ⟨pr, hm', hor⟩
    · exact Or.inr ⟨pr, hm', hor⟩
  · rintro (⟨pr, hm', hor⟩ | ⟨pr, hm', hor⟩)
    · exact ⟨pr, List.mem_append_left _ hm', hor⟩
    · exact ⟨pr, List.mem_append_right _ hm', hor⟩

theorem tourEdges_entry (p : List ℕ) : ∀ (sol : FMatrix ℚ) (last i j : ℕ),
    (tourEdges sol last p).entry i j
      = if symMem ((last :: p).zip p) i j then 1 else sol.entry i j := by
  induction p with
  | nil =>
    intro sol last i j
    have h : ¬ symMem [] i j := symMem_nil i j
    simp [tourEdges, h]
  | cons v vs ih =>
    intro sol last i j
    show (tourEdges (addEdge sol last v) v vs).entry i j = _
    rw [ih (addEdge sol last v) v i j, addEdge_entry]
    have hz : (last :: v :: vs).zip (v :: vs) = (last, v) :: ((v :: vs).zip vs) := rfl
    rw [hz]
    by_cases h1 : symMem ((v :: vs).zip vs) i j
    · by_cases h2 : (i = last ∧ j = v) ∨ (i = v ∧ j = last) <;>
        simp [h1, h2, symMem_cons]
    · by_cases h2 : (i = last ∧ j = v) ∨ (i = v ∧ j = last) <;>
        simp [h1, h2, symMem_cons]

theorem zip_cons_append (l : List ℕ) : ∀ (a x : ℕ),
    (a :: l).zip (l ++ [x]) = ((a :: l).zip l) ++ [(lastOf a l, x)] := by
  induction l with
  | nil => intro a x; rfl
  | cons b l' ih =>
    intro a x
    show (a, b) :: (b :: l').zip (l' ++ [x])
        = (a, b) :: ((b :: l').zip l' ++ [(lastOf a (b :: l'), x)])
    rw [ih b x]
    rfl

theorem rotate_cons (a : ℕ) (l : List ℕ) : (a :: l).rotate 1 = l ++ [a] := by
  rw [List.rotate_cons_succ, List.rotate_zero]

/-- Entry characterisation of a completed ant tour. -/
theorem tour_entry (n first : ℕ) (p : List ℕ) (i j : ℕ) :
    (addEdge (tourEdges (FMatrix.zeros n n) first p) (lastOf first p) first).entry i j
      = if InCyc (first :: p) i j then 1 else 0 := by
  rw [addEdge_entry, tourEdges_entry]
  have hcyc : InCyc (first :: p) i j
      ↔ symMem ((first :: p).zip p) i j
        ∨ ((i = lastOf first p ∧ j = first) ∨ (i = first ∧ j = lastOf first p)) := by
    show symMem ((first :: p).zip ((first :: p).rotate 1)) i j ↔ _
    rw [rotate_cons, zip_cons_append, symMem_append]
    have hone : symMem [(lastOf first p, first)] i j
        ↔ (i = lastOf first p ∧ j = first) ∨ (i = first ∧ j = lastOf first p) := by
      rw [symMem_cons]
      simp [symMem_nil]
    rw [hone]
  by_cases h1 : symMem ((first :: p).zip p) i j
  · by_cases h2 : (i = lastOf first p ∧ j = first) ∨ (i = first ∧ j = lastOf first p) <;>
      simp [h1, h2, hcyc, FMatrix.zeros]
  · by_cases h2 : (i = lastOf first p ∧ j = first) ∨ (i = first ∧ j = lastOf first p) <;>
      simp [h1, h2, hcyc, FMatrix.zeros]

theorem InCyc_symm (c : List ℕ) (i j : ℕ) : InCyc c i j ↔ InCyc c j i := by
  unfold InCyc symMem
  constructor <;> rintro ⟨pr, hm, h | h⟩
  · exact ⟨pr, hm, Or.inr h⟩
  · exact ⟨pr, hm, Or.inl h⟩
  · exact ⟨pr, hm, Or.inr h⟩
  · exact ⟨pr, hm, Or.inl h⟩

/-- The roulette-wheel scan picks an element of the candidate list whenever
the drawn value does not exceed the candidates' total weight. -/
theorem selectNext_mem (row : ℕ → ℚ) (last : ℕ) :
    ∀ (l : List ℕ) (r : ℚ), l ≠ [] → r ≤ (l.map row).sum →
      selectNext row r last l ∈ l := by
  intro l
  induction l with
  | nil => intro r h _; exact absurd rfl h
  | cons v vs ih =>
    intro r _ hr
    by_cases hv : r - row v ≤ 0
    · simp [selectNext, hv]
    · cases vs with
      | nil =>
        exfalso
        apply hv
        simp only [List.map_cons, List.map_nil, List.sum_cons, List.sum_nil, add_zero] at hr
        linarith
      | cons w ws =>
        have hr' : r - row v ≤ ((w :: ws).map row).sum := by
          simp only [List.map_cons, List.sum_cons] at hr ⊢
          linarith
        have hmem := ih (r - row v) (by simp) hr'
        have hsel : selectNext row r last (v :: w :: ws)
            = selectNext row (r - row v) last (w :: ws) := by
          rw [selectNext]
          exact if_neg hv
        rw [hsel]
        exact List.mem_cons_of_mem v hmem

/-- One-step unfolding of the construction loop on a non-empty unvisited
list with positive fuel. -/
theorem runAntLoop_cons (prob : FMatrix ℚ) (n : ℕ) (rng : Rng)
    (first m : ℕ) (sol : FMatrix ℚ) (last v : ℕ) (vs : List ℕ) (k : ℕ) :
    runAntLoop prob n rng first (m + 1) sol last (v :: vs) k
      = if ((v :: vs).map fun j => prob.entry last j).sum ≤ 0
        then (FMatrix.zeros n n, true)
        else
          runAntLoop prob n rng first m
            (addEdge sol last (selectNext (fun j => prob.entry last j)
              (rng.u k * ((v :: vs).map fun j => prob.entry last j).sum) last (v :: vs)))
            (selectNext (fun j => prob.entry last j)
              (rng.u k * ((v :: vs).map fun j => prob.entry last j).sum) last (v :: vs))
            ((v :: vs).erase (selectNext (fun j => prob.entry last j)
              (rng.u k * ((v :: vs).map fun j => prob.entry last j).sum) last (v :: vs)))
            (k + 1) := rfl

/-- A non-aborting run of the construction loop visits some ordering `p` of
the unvisited nodes and produces exactly the corresponding path edges plus
the closing edge back to `first`. -/
theorem runAntLoop_visits (prob : FMatrix ℚ) (n : ℕ) (rng : Rng) (first : ℕ) :
    ∀ (m : ℕ) (l : List ℕ), l.length = m → ∀ (sol : FMatrix ℚ) (last k : ℕ),
    (runAntLoop prob n rng first m sol last l k).2 = false →
    ∃ p : List ℕ, p.Perm l ∧
      (runAntLoop prob n rng first m sol last l k).1
        = addEdge (tourEdges sol last p) (lastOf last p) first := by
  intro m
  induction m with
  | zero =>
    intro l hl sol last k _
    have hnil : l = [] := List.eq_nil_of_length_eq_zero hl
    subst hnil
    exact ⟨[], List.Perm.refl [], rfl⟩
  | succ m ihm =>
    intro l hl sol last k hflag
    cases l with
    | nil => exact ⟨[], List.Perm.refl [], rfl⟩
    | cons v vs =>
      rw [runAntLoop_cons] at hflag ⊢
      by_cases hs : ((v :: vs).map fun j => prob.entry last j).sum ≤ 0
      · rw [if_pos hs] at hflag
        exact absurd hflag (by simp)
      · rw [if_neg hs] at hflag ⊢
        have hspos : 0 < ((v :: vs).map fun j => prob.entry last j).sum :=
          lt_of_not_le hs
        have hr : rng.u k * ((v :: vs).map fun j => prob.entry last j).sum
            ≤ ((v :: vs).map fun j => prob.entry last j).sum := by
          have := mul_lt_mul_of_pos_right (rng.u_lt_one k) hspos
          rw [one_mul] at this
          exact le_of_lt this
        have hnext : selectNext (fun j => prob.entry last j)
            (rng.u k * ((v :: vs).map fun j => prob.entry last j).sum) last (v :: vs)
            ∈ v :: vs :=
          selectNext_mem _ _ _ _ (by simp) hr
        have hlen' : ((v :: vs).erase (selectNext (fun j => prob.entry last j)
            (rng.u k * ((v :: vs).map fun j => prob.entry last j).sum) last (v :: vs))).length
            = m := by
          rw [List.length_erase_of_mem hnext]
          simpa using hl
        obtain ⟨p', hperm, hres⟩ := ihm _ hlen' _ _ _ hflag
        refine ⟨selectNext (fun j => prob.entry last j)
          (rng.u k * ((v :: vs).map fun j => prob.entry last j).sum) last (v :: vs) :: p',
          ?_, ?_⟩
        · exact (hperm.cons _).trans (List.perm_cons_erase hnext).symm
        · exact hres

/-- A non-aborting `run_ant` visits some ordering of the nodes other than the
start node and produces the corresponding closed tour. -/
theorem runAnt_visits (prob : FMatrix ℚ) (rng : Rng)
    (h : (runAnt prob rng).2 = false) :
    ∃ p : List ℕ,
      p.Perm ((List.range prob.nrows).erase (rng.nat 0 % prob.nrows)) ∧
      (runAnt prob rng).1
        = addEdge (tourEdges (FMatrix.zeros prob.nrows prob.nrows)
            (rng.nat 0 % prob.nrows) p)
          (lastOf (rng.nat 0 % prob.nrows) p) (rng.nat 0 % prob.nrows) :=
  runAntLoop_visits prob prob.nrows rng (rng.nat 0 % prob.nrows) _ _ rfl _ _ _ h

theorem cycGet_mem (c : List ℕ) (h : 0 < c.length) (k : ℕ) : cycGet c k ∈ c := by
  unfold cycGet
  rw [List.getD_eq_getElem _ _ (Nat.mod_lt _ h)]
  exact List.getElem_mem _

theorem cycGet_mod (c : List ℕ) (k : ℕ) : cycGet c (k % c.length) = cycGet c k := by
  unfold cycGet
  rw [Nat.mod_mod_of_dvd k dvd_rfl]

theorem cycGet_inj (c : List ℕ) (hnd : c.Nodup) (a b : ℕ)
    (ha : a < c.length) (hb : b < c.length) (h : cycGet c a = cycGet c b) : a = b := by
  unfold cycGet at h
  rw [Nat.mod_eq_of_lt ha, Nat.mod_eq_of_lt hb,
    List.getD_eq_getElem _ _ ha, List.getD_eq_getElem _ _ hb] at h
  exact (List.Nodup.getElem_inj_iff hnd).mp h

/-- Membership in the cyclically shifted zip, phrased with cyclic indexing. -/
theorem mem_zip_rotate (c : List ℕ) (h : 0 < c.length) (x y : ℕ) :
    ((x, y) ∈ c.zip (c.rotate 1))
      ↔ ∃ k, k < c.length ∧ cycGet c k = x ∧ cycGet c (k + 1) = y := by
  have hlen1 : (c.zip (c.rotate 1)).length = c.length := by
    rw [List.length_zip, List.length_rotate, min_self]
  constructor
  · intro hmem
    obtain ⟨m, hm', hget⟩ := List.mem_iff_getElem.mp hmem
    have hm : m < c.length := by rw [← hlen1]; exact hm'
    rw [List.getElem_zip] at hget
    obtain ⟨h1, h2⟩ := Prod.ext_iff.mp hget
    rw [List.getElem_rotate] at h2
    refine ⟨m, hm, ?_, ?_⟩
    · unfold cycGet
      rw [Nat.mod_eq_of_lt hm, List.getD_eq_getElem _ _ hm]
      exact h1
    · unfold cycGet
      rw [List.getD_eq_getElem _ _ (Nat.mod_lt _ h)]
      exact h2
  · rintro ⟨k, hk, hx, hy⟩
    apply List.mem_iff_getElem.mpr
    have hzk : k < (c.zip (c.rotate 1)).length := by rw [hlen1]; exact hk
    refine ⟨k, hzk, ?_⟩
    rw [List.getElem_zip, List.getElem_rotate]
    apply Prod.ext_iff.mpr
    constructor
    · unfold cycGet at hx
      rw [Nat.mod_eq_of_lt hk, List.getD_eq_getElem _ _ hk] at hx
      exact hx
    · unfold cycGet at hy
      rw [List.getD_eq_getElem _ _ (Nat.mod_lt _ h)] at hy
      exact hy

/-- Cyclic successor index arithmetic: stepping forward from the cyclic
predecessor of `k0` lands back on `k0`. -/
theorem mod_pred_succ (n k0 : ℕ) (h : 0 < n) (hk0 : k0 < n) :
    ((k0 + n - 1) % n + 1) % n = k0 := by
  rcases Nat.eq_zero_or_pos k0 with rfl | hpos
  · have h1 : (0 + n - 1) % n = n - 1 := by
      rw [Nat.zero_add, Nat.mod_eq_of_lt (by omega)]
    rw [h1]
    have h2 : n - 1 + 1 = n := by omega
    rw [h2, Nat.mod_self]
  · have h1 : k0 + n - 1 = n + (k0 - 1) := by omega
    have h2 : (k0 + n - 1) % n = k0 - 1 := by
      rw [h1, Nat.add_mod_left, Nat.mod_eq_of_lt (by omega)]
    rw [h2]
    have h3 : k0 - 1 + 1 = k0 := by omega
    rw [h3, Nat.mod_eq_of_lt hk0]

/-- If the cyclic successor of index `k` is `k0`, then `k` is the cyclic
predecessor of `k0`. -/
theorem mod_succ_pred (n k k0 : ℕ) (hk : k < n) (hk0 : k0 < n)
    (h : (k + 1) % n = k0) : k = (k0 + n - 1) % n := by
  rcases Nat.lt_or_ge (k + 1) n with hlt | hge
  · rw [Nat.mod_eq_of_lt hlt] at h
    subst h
    have h1 : k + 1 + n - 1 = n + k := by omega
    rw [h1, Nat.add_mod_left, Nat.mod_eq_of_lt hk]
  · have hkn : k + 1 = n := by omega
    rw [hkn, Nat.mod_self] at h
    subst h
    have h1 : (0 + n - 1) % n = n - 1 := by
      rw [Nat.zero_add, Nat.mod_eq_of_lt (by omega)]
    rw [h1]
    omega

/-- The two cyclic neighbours of any index are distinct when the cycle has
at least three nodes. -/
theorem mod_succ_ne_pred (n k0 : ℕ) (h3 : 3 ≤ n) (hk0 : k0 < n) :
    (k0 + 1) % n ≠ (k0 + n - 1) % n := by
  intro heq
  rcases Nat.lt_or_ge (k0 + 1) n with hlt | hge
  · rw [Nat.mod_eq_of_lt hlt] at heq
    rcases Nat.eq_zero_or_pos k0 with rfl | hpos
    · have h1 : (0 + n - 1) % n = n - 1 := by
        rw [Nat.zero_add, Nat.mod_eq_of_lt (by omega)]
      rw [h1] at heq
      omega
    · have h1 : k0 + n - 1 = n + (k0 - 1) := by omega
      have h2 : (k0 + n - 1) % n = k0 - 1 := by
        rw [h1, Nat.add_mod_left, Nat.mod_eq_of_lt (by omega)]
      rw [h2] at heq
      omega
  · have hkn : k0 + 1 = n := by omega
    rw [hkn, Nat.mod_self] at heq
    have h1 : k0 + n - 1 = n + (k0 - 1) := by omega
    have h2 : (k0 + n - 1) % n = k0 - 1 := by
      rw [h1, Nat.add_mod_left, Nat.mod_eq_of_lt (by omega)]
    rw [h2] at heq
    omega

/-- The cycle edges incident to `i` (sitting at index `k0`) are exactly those
joining `i` to its cyclic successor and predecessor. -/
theorem InCyc_iff_neighbors (c : List ℕ) (hnd : c.Nodup) (h : 0 < c.length)
    (i k0 : ℕ) (hk0 : k0 < c.length) (hik0 : cycGet c k0 = i) (j : ℕ) :
    InCyc c i j ↔ (j = cycGet c (k0 + 1) ∨ j = cycGet c (k0 + c.length - 1)) := by
  unfold InCyc symMem
  constructor
  · rintro ⟨pr, hm, hor⟩
    rcases hor with rfl | rfl
    · obtain ⟨k, hk, hx, hy⟩ := (mem_zip_rotate c h i j).mp hm
      have hkk0 : k = k0 := cycGet_inj c hnd k k0 hk hk0 (by rw [hx, hik0])
      subst hkk0
      exact Or.inl hy.symm
    · obtain ⟨k, hk, hx, hy⟩ := (mem_zip_rotate c h j i).mp hm
      have hky : cycGet c ((k + 1) % c.length) = i := by
        rw [cycGet_mod]; exact hy
      have hik : (k + 1) % c.length = k0 :=
        cycGet_inj c hnd _ k0 (Nat.mod_lt _ h) hk0 (by rw [hky, hik0])
      have hkp : k = (k0 + c.length - 1) % c.length :=
        mod_succ_pred c.length k k0 hk hk0 hik
      right
      rw [← hx, hkp, cycGet_mod]
  · rintro (rfl | rfl)
    · refine ⟨(i, cycGet c (k0 + 1)), ?_, Or.inl rfl⟩
      exact (mem_zip_rotate c h _ _).mpr ⟨k0, hk0, hik0, rfl⟩
    · refine ⟨(cycGet c (k0 + c.length - 1), i), ?_, Or.inr rfl⟩
      apply (mem_zip_rotate c h _ _).mpr
      refine ⟨(k0 + c.length - 1) % c.length, Nat.mod_lt _ h, ?_, ?_⟩
      · rw [cycGet_mod]
      · rw [← cycGet_mod, mod_pred_succ c.length k0 h hk0, hik0]

/-- Each node of an `n`-node cycle (with `n ≥ 3`) has exactly two incident
cycle edges: the 0/1 row of the cyclic adjacency relation sums to 2. -/
theorem InCyc_count (n : ℕ) (c : List ℕ) (hnd : c.Nodup) (hlen : c.length = n)
    (hmem : ∀ v, v ∈ c ↔ v < n) (h3 : 3 ≤ n) (i : ℕ) (hi : i < n) :
    ∑ j ∈ Finset.range n, (if InCyc c i j then (1 : ℚ) else 0) = 2 := by
  have hpos : 0 < c.length := by rw [hlen]; omega
  have hic : i ∈ c := (hmem i).mpr hi
  obtain ⟨k0, hk0, hik0⟩ := List.mem_iff_getElem.mp hic
  have hik0' : cycGet c k0 = i := by
    unfold cycGet
    rw [Nat.mod_eq_of_lt hk0, List.getD_eq_getElem _ _ hk0]
    exact hik0
  have hiff : ∀ j, InCyc c i j
      ↔ (j = cycGet c (k0 + 1) ∨ j = cycGet c (k0 + c.length - 1)) :=
    InCyc_iff_neighbors c hnd hpos i k0 hk0 hik0'
  have hne : cycGet c (k0 + 1) ≠ cycGet c (k0 + c.length - 1) := by
    intro heq
    apply mod_succ_ne_pred c.length k0 (by omega) hk0
    apply cycGet_inj c hnd _ _ (Nat.mod_lt _ hpos) (Nat.mod_lt _ hpos)
    rw [cycGet_mod, cycGet_mod]
    exact heq
  have hnxtn : cycGet c (k0 + 1) < n := (hmem _).mp (cycGet_mem c hpos _)
  have hprvn : cycGet c (k0 + c.length - 1) < n := (hmem _).mp (cycGet_mem c hpos _)
  have hsplit : ∀ j, (if InCyc c i j then (1 : ℚ) else 0)
      = (if j = cycGet c (k0 + 1) then (1 : ℚ) else 0)
        + (if j = cycGet c (k0 + c.length - 1) then (1 : ℚ) else 0) := by
    intro j
    rw [if_congr (hiff j) rfl rfl]
    by_cases h1 : j = cycGet c (k0 + 1)
    · by_cases h2 : j = cycGet c (k0 + c.length - 1)
      · subst h1
        exact absurd h2 hne
      · simp [h1, h2, hne]
    · by_cases h2 : j = cycGet c (k0 + c.length - 1) <;> simp [h1, h2, Ne.symm hne]
  rw [Finset.sum_congr rfl fun j _ => hsplit j, Finset.sum_add_distrib,
    Finset.sum_ite_eq' (Finset.range n) (cycGet c (k0 + 1)) fun _ => (1 : ℚ),
    Finset.sum_ite_eq' (Finset.range n) (cycGet c (k0 + c.length - 1)) fun _ => (1 : ℚ),
    if_pos (Finset.mem_range.mpr hnxtn), if_pos (Finset.mem_range.mpr hprvn)]
  norm_num

/-- C7 counterexample: for `n = 1` and `n = 2` the construction completes
without the degenerate abort, yet the resulting adjacency matrix has rows
summing to 1, not 2 (the closing edge coincides with an already-marked edge),
contradicting the claim for general `n`. -/
theorem run_ant_small_n_row_sum :
    (runAnt (onesM 1) rng0).2 = false ∧ (runAnt (onesM 1) rng0).1.rowSum 0 = 1 ∧
    (runAnt (onesM 2) rng0).2 = false ∧ (runAnt (onesM 2) rng0).1.rowSum 0 = 1 := by
  refine ⟨?_, ?_, ?_, ?_⟩ <;>
    norm_num [runAnt, runAntLoop, selectNext, addEdge, onesM, rng0, FMatrix.set,
      FMatrix.zeros, FMatrix.rowSum, List.range_succ, Finset.sum_range_succ]

/-- C7 (amended, `n ≥ 3`): every ant construction over an `n × n` weight
matrix with `n ≥ 3` that does not hit the zero-denominator abort returns a
symmetric 0/1 matrix of the same dimensions, with every row and column
summing to exactly 2, whose 1-entries are the edges of a single cycle
covering all `n` nodes. -/
theorem run_ant_hamiltonian (prob : FMatrix ℚ) (rng : Rng) (M : FMatrix ℚ)
    (h3 : 3 ≤ prob.nrows) (hrun : runAnt prob rng = (M, false)) :
    M.nrows = prob.nrows ∧ M.ncols = prob.nrows ∧
    (∀ i j, M.entry i j = M.entry j i) ∧
    (∀ i j, M.entry i j = 0 ∨ M.entry i j = 1) ∧
    (∀ i, i < prob.nrows → M.rowSum i = 2) ∧
    (∀ j, j < prob.nrows → M.colSum j = 2) ∧
    IsHamCycleMatrix prob.nrows M := by
  have hflag : (runAnt prob rng).2 = false := by rw [hrun]
  obtain ⟨p, hp, hres⟩ := runAnt_visits prob rng hflag
  rw [hrun] at hres
  change M = _ at hres
  have hnpos : 0 < prob.nrows := by omega
  have hfirst : rng.nat 0 % prob.nrows < prob.nrows := Nat.mod_lt _ hnpos
  have hcperm : (rng.nat 0 % prob.nrows :: p).Perm (List.range prob.nrows) := by
    have h1 : (List.range prob.nrows).Perm
        (rng.nat 0 % prob.nrows ::
          (List.range prob.nrows).erase (rng.nat 0 % prob.nrows)) :=
      List.perm_cons_erase (List.mem_range.mpr hfirst)
    exact (hp.cons _).trans h1.symm
  have hnd : (rng.nat 0 % prob.nrows :: p).Nodup :=
    hcperm.nodup_iff.mpr (List.nodup_range prob.nrows)
  have hclen : (rng.nat 0 % prob.nrows :: p).length = prob.nrows := by
    rw [hcperm.length_eq, List.length_range]
  have hcmem : ∀ v, v ∈ (rng.nat 0 % prob.nrows :: p) ↔ v < prob.nrows := fun v => by
    rw [hcperm.mem_iff, List.mem_range]
  have hchar : ∀ i j, M.entry i j
      = if InCyc (rng.nat 0 % prob.nrows :: p) i j then 1 else 0 := by
    intro i j
    rw [hres]
    exact tour_entry prob.nrows (rng.nat 0 % prob.nrows) p i j
  have hrows : M.nrows = prob.nrows := by
    rw [hres, addEdge_nrows, tourEdges_nrows]
    rfl
  have hcols : M.ncols = prob.nrows := by
    rw [hres, addEdge_ncols, tourEdges_ncols]
    rfl
  refine ⟨hrows, hcols, ?_, ?_, ?_, ?_, ?_⟩
  · intro i j
    rw [hchar i j, hchar j i, if_congr (InCyc_symm _ i j) rfl rfl]
  · intro i j
    rw [hchar i j]
    by_cases h : InCyc (rng.nat 0 % prob.nrows :: p) i j <;> simp [h]
  · intro i hi
    unfold FMatrix.rowSum
    rw [hcols, Finset.sum_congr rfl fun j _ => hchar i j]
    exact InCyc_count prob.nrows _ hnd hclen hcmem h3 i hi
  · intro j hj
    unfold FMatrix.colSum
    have hsym : ∀ i, M.entry i j
        = if InCyc (rng.nat 0 % prob.nrows :: p) j i then 1 else 0 := fun i => by
      rw [hchar i j, if_congr (InCyc_symm _ i j) rfl rfl]
    rw [hrows, Finset.sum_congr rfl fun i _ => hsym i]
    exact InCyc_count prob.nrows _ hnd hclen hcmem h3 j hj
  · refine ⟨rng.nat 0 % prob.nrows :: p, hnd, hclen, hcmem, ?_⟩
    intro i j
    rw [hchar i j]
    by_cases h : InCyc (rng.nat 0 % prob.nrows :: p) i j <;> simp [h]

/-- Witness for the amended C7 at the concrete all-ones `3 × 3` matrix. -/
theorem run_ant_hamiltonian_w :
    3 ≤ (onesM 3).nrows ∧
    runAnt (onesM 3) rng0 = ((runAnt (onesM 3) rng0).1, false) ∧
    ((runAnt (onesM 3) rng0).1.nrows = (onesM 3).nrows ∧
      (runAnt (onesM 3) rng0).1.ncols = (onesM 3).nrows ∧
      (∀ i j, (runAnt (onesM 3) rng0).1.entry i j = (runAnt (onesM 3) rng0).1.entry j i) ∧
      (∀ i j, (runAnt (onesM 3) rng0).1.entry i j = 0 ∨
        (runAnt (onesM 3) rng0).1.entry i j = 1) ∧
      (∀ i, i < (onesM 3).nrows → (runAnt (onesM 3) rng0).1.rowSum i = 2) ∧
      (∀ j, j < (onesM 3).nrows → (runAnt (onesM 3) rng0).1.colSum j = 2) ∧
      IsHamCycleMatrix (onesM 3).nrows (runAnt (onesM 3) rng0).1) := by
  have h2 : (runAnt (onesM 3) rng0).2 = false := by
    norm_num [runAnt, runAntLoop, selectNext, addEdge, onesM, rng0, FMatrix.set,
      FMatrix.zeros, List.range_succ]
  have hpair : runAnt (onesM 3) rng0 = ((runAnt (onesM 3) rng0).1, false) :=
    Prod.ext_iff.mpr ⟨rfl, h2⟩
  exact ⟨by norm_num [onesM], hpair,
    run_ant_hamiltonian (onesM 3) rng0 _ (by norm_num [onesM]) hpair⟩

end ECRS
